import Mathlib

set_option linter.unusedSectionVars false
set_option linter.unusedVariables false

/-!
# Verification of the classical-sdlp core

Shallow embedding of the repository's algorithmic core:

* `bsgs.py` — `bsgs_dlp` (baby-step giant-step for the discrete logarithm
  problem, multiplicative and additive modes) and `bsgs_sdlp` (the
  semidirect variant with two-sided "sandwich" steps);
* `period.py` — `find_period` (factorization-guided reduction of a period
  multiple to the exact period, testing the base component only);
* `find_period.py` — the legacy `find_period` (same reduction, testing full
  equality of powers of `(g, id)` against the identity);
* `groups/finite_field.py` — `SemidirectProductElementZp`, the concrete
  semidirect platform over `F_p* ⋊ Aut(F_p*)`, and the generic semidirect
  composition law `(g1,x1)·(g2,x2) = (g1 * x1(g2), x1*x2)` shared by the
  three platform files.

Machine integers do not occur: the Python code computes with unbounded
integers, so `ℕ`/`ZMod` are exact models.  The Python `dict` used for the
baby-step table binds a repeated key to the *most recent* value; the model
keeps the table as an association list with the newest binding in front,
so `tlookup` (first match) realizes exactly the dict's lookup.
-/

namespace SDLP

/-- Linear search for the least `m` with `n ≤ m * m`, starting at `m`
with the given fuel (enough fuel is always supplied below). -/
def ceilSqrtFrom (n : ℕ) : ℕ → ℕ → ℕ
  | m, 0 => m
  | m, fuel + 1 => if n ≤ m * m then m else ceilSqrtFrom n (m + 1) fuel

/-- The value `ceil(sqrt(bound))` computed exactly — the least `m` with
`bound ≤ m²`, which is what the source's `math.ceil(math.sqrt(bound))` means. -/
def ceilSqrt (n : ℕ) : ℕ := ceilSqrtFrom n 0 n

/-- Lookup in the baby-step table; the first match is the binding most
recently written, matching Python dict assignment. -/
def tlookup {α : Type} [DecidableEq α] : List (α × ℕ) → α → Option ℕ
  | [], _ => none
  | (k, v) :: rest, a => if a = k then some v else tlookup rest a

/-- The baby-step loop: `for i in range(k): T[temp] = i; temp = step temp`,
starting from index `i` and element `temp`, accumulating into `T`.
New bindings are consed in front (Python dict assignment overwrites). -/
def buildTable {α : Type} (step : α → α) : ℕ → ℕ → α → List (α × ℕ) → List (α × ℕ)
  | 0, _, _, T => T
  | k + 1, i, temp, T => buildTable step k (i + 1) (step temp) ((temp, i) :: T)

/-- The giant-step loop: `for i in range(k): if temp in T: return (i, T[temp]);
temp = gstep temp`, starting at counter `i`.  Returns the pair
`(giant index, table value)` of the first hit, or `none` when exhausted. -/
def giantLoop {α : Type} [DecidableEq α] (gstep : α → α) (T : List (α × ℕ)) :
    ℕ → ℕ → α → Option (ℕ × ℕ)
  | 0, _, _ => none
  | k + 1, i, temp =>
    match tlookup T temp with
    | some j => some (i, j)
    | none => giantLoop gstep T k (i + 1) (gstep temp)

/-- One full meet-in-the-middle pass: build the baby table from the
identity with `step`, then run `m` giant steps from `h` with `gstep`. -/
def bsgsRun {α : Type} [DecidableEq α] (ident : α) (step gstep : α → α) (h : α) (m : ℕ) :
    Option (ℕ × ℕ) :=
  giantLoop gstep (buildTable step m 0 ident []) m 0 h

/-- The two `ValueError`s raised by `bsgs.py`: the unrecognized-operation
error (line 48) and the log-does-not-exist error (lines 50-52, 87-89). -/
inductive BsgsError
  | invalidOperation
  | notFound
deriving DecidableEq

/-- The duck-typed surface `bsgs_dlp` consumes from a platform's elements:
`one`/`*`/inverse for the multiplicative mode, `zero`/`+`/negation for the
additive mode. -/
structure GroupOps (α : Type) where
  one : α
  mul : α → α → α
  inv : α → α
  zero : α
  add : α → α → α
  neg : α → α

/-- The operation surface of a multiplicative group realization.  A
multiplicative platform has only the one group operation; the additive
slots expose that same operation (the source would fail on `+` for such a
platform, and no theorem below relies on those slots). -/
def GroupOps.ofGroup (α : Type) [Group α] : GroupOps α :=
  ⟨1, (· * ·), (·⁻¹), 1, (· * ·), (·⁻¹)⟩

/-- The operation surface of an additive group realization (such as the
elliptic-curve platform); the multiplicative slots expose the same single
operation. -/
def GroupOps.ofAddGroup (α : Type) [AddGroup α] : GroupOps α :=
  ⟨0, (· + ·), (- ·), 0, (· + ·), (- ·)⟩

/-- Computes `g^m` by repeated multiplication from `one` (the value the
source's `g^m` denotes in any monoid realization). -/
def opow {α : Type} (ops : GroupOps α) (g : α) (m : ℕ) : α :=
  (fun t => ops.mul t g)^[m] ops.one

/-- Computes `m*g` by repeated addition from `zero`. -/
def osmul {α : Type} (ops : GroupOps α) (g : α) (m : ℕ) : α :=
  (fun t => ops.add t g)^[m] ops.zero

/-- The baby-step table of `bsgs_dlp`'s multiplicative branch (lines 22-25
of `bsgs.py`): `temp = G.one(); for i in range(m): T[temp] = i; temp = temp*g`. -/
def dlpTable {α : Type} (ops : GroupOps α) (g : α) (m : ℕ) : List (α × ℕ) :=
  buildTable (fun t => ops.mul t g) m 0 ops.one []

/-- Function `bsgs_dlp(G, h, g, bound, operation)` from `bsgs.py`.  The `"*"` branch
tables `g^i ↦ i` for `i < m` and giant-steps by `g^(-m)`; the `"+"` branch
is the same algorithm spelled additively; any other operation string raises
`ValueError("Operation must be either '*' or '+'")` before touching the
group; exhaustion raises the log-does-not-exist `ValueError`. -/
def bsgs_dlp {α : Type} [DecidableEq α] (ops : GroupOps α) (h g : α) (bound : ℕ)
    (operation : String) : Except BsgsError ℕ :=
  let m := ceilSqrt bound
  if operation = "*" then
    let gm_inv := ops.inv (opow ops g m)
    match giantLoop (fun t => ops.mul t gm_inv) (dlpTable ops g m) m 0 h with
    | some (i, j) => .ok (j + i * m)
    | none => .error .notFound
  else if operation = "+" then
    let gm_neg := ops.neg (osmul ops g m)
    match giantLoop (fun t => ops.add t gm_neg) (buildTable (fun t => ops.add t g) m 0 ops.zero []) m 0 h with
    | some (i, j) => .ok (j + i * m)
    | none => .error .notFound
  else
    .error .invalidOperation

/-- Function `bsgs_sdlp(G, w, (u, v), bound)` from `bsgs.py`: baby steps iterate the
sandwich `temp ↦ u * temp * v` from the identity, giant steps compose with
`u^(-m)` on the left and `v^(-m)` on the right, and a hit at giant step `i`
with table value `j` returns `i * m + j`. -/
def bsgs_sdlp {α : Type} [Group α] [DecidableEq α] (w u v : α) (bound : ℕ) :
    Except BsgsError ℕ :=
  let m := ceilSqrt bound
  let um_inv := u ^ (-(m : ℤ))
  let vm_inv := v ^ (-(m : ℤ))
  match bsgsRun 1 (fun P => u * P * v) (fun P => um_inv * P * vm_inv) w m with
  | some (i, j) => .ok (i * m + j)
  | none => .error .notFound

/-- The `t`-th iterate of the sandwich map `P ↦ u * P * v` starting from the
identity — the recurrence `bsgs_sdlp` inverts. -/
def sandwich {α : Type} [Group α] (u v : α) (t : ℕ) : α :=
  (fun P => u * P * v)^[t] 1

/-- A semidirect-product element `(g, x)`: base component `g`, acting
automorphism component `x`.  All three platform classes
(`SemidirectProductElementZp`, `SemidirectProductElementEAG`,
`SemidirectProductElementEC`) carry exactly these two fields. -/
structure SDE (β γ : Type) where
  g : β
  x : γ
deriving DecidableEq

variable {β γ : Type} [Group β] [Group γ] [MulDistribMulAction γ β]

instance : One (SDE β γ) := ⟨⟨1, 1⟩⟩

/-- Method `_mul_`: `new_g = g1 * x1(g2)`, `new_x = x1 * x2` (the shared
composition law of the three platform files, base group written
multiplicatively, `x1(g2)` the automorphism action `x1 • g2`). -/
instance : Mul (SDE β γ) := ⟨fun a b => ⟨a.g * a.x • b.g, a.x * b.x⟩⟩

/-- Method `__invert__`: `new_x = x⁻¹`, `new_g = (x⁻¹(g))⁻¹`. -/
instance : Inv (SDE β γ) := ⟨fun a => ⟨(a.x⁻¹ • a.g)⁻¹, a.x⁻¹⟩⟩

instance : Group (SDE β γ) where
  mul := (· * ·)
  one := 1
  inv := (·⁻¹)
  mul_assoc a b c := by
    show SDE.mk ((a.g * a.x • b.g) * (a.x * b.x) • c.g) ((a.x * b.x) * c.x)
       = SDE.mk (a.g * a.x • (b.g * b.x • c.g)) (a.x * (b.x * c.x))
    rw [SDE.mk.injEq]
    constructor
    · rw [mul_smul, smul_mul', mul_assoc]
    · rw [mul_assoc]
  one_mul a := by
    show SDE.mk ((1 : β) * (1 : γ) • a.g) ((1 : γ) * a.x) = a
    rw [one_smul, one_mul, one_mul]
  mul_one a := by
    show SDE.mk (a.g * a.x • (1 : β)) (a.x * 1) = a
    rw [smul_one, mul_one, mul_one]
  inv_mul_cancel a := by
    show SDE.mk ((a.x⁻¹ • a.g)⁻¹ * a.x⁻¹ • a.g) (a.x⁻¹ * a.x) = SDE.mk 1 1
    rw [inv_mul_cancel, inv_mul_cancel]

/-- The partner the callers in `main.py` pair with `u`: base identity,
automorphism the inverse of `u`'s (`v = G(1, pow(base_elem.x, -1, p-1))`,
`v = G(G._V.zero(), A ** (-1))`). -/
def vpartner (u : SDE β γ) : SDE β γ := ⟨1, u.x⁻¹⟩

/-- Predicate: `r` is the exact period of the semidirect element `u` — the minimal
positive exponent whose power has the base component of the identity
(spec §3 "Period"). -/
def IsExactPeriod (u : SDE β γ) (r : ℕ) : Prop :=
  0 < r ∧ (u ^ r).g = 1 ∧ ∀ k < r, 0 < k → (u ^ k).g ≠ 1

/-- One inner iteration block of `find_period`'s `while e > 0` loop for a
fixed prime `p`: try `l = length // p`; on success keep stripping, on the
first failure stop for this prime. -/
def stripLoop (test : ℕ → Bool) (p : ℕ) : ℕ → ℕ → ℕ
  | length, 0 => length
  | length, e + 1 =>
    if test (length / p) then stripLoop test p (length / p) e else length

/-- The skeleton shared by `period.py` and `find_period.py`: iterate over the
prime factorization of `n` (ascending primes, multiplicities from `n`),
stripping factors while the candidate passes `test`. -/
def findPeriodCore (test : ℕ → Bool) (n : ℕ) : ℕ :=
  n.primeFactorsList.dedup.foldl
    (fun length p => stripLoop test p length (n.primeFactorsList.count p)) n

/-- Function `find_period(u, n)` from `period.py`: the success test is
`(u**l).g == u.parent().one().g` — base component only. -/
def find_period [DecidableEq β] (u : SDE β γ) (n : ℕ) : ℕ :=
  findPeriodCore (fun l => decide ((u ^ l).g = 1)) n

/-- Function `find_period(g, n, G)` from `find_period.py`: it builds `u = G.one()`
then sets `u.g = g` — i.e. the element `(g, id)` — and its success test is
full equality `u**l == G.one()`. -/
def find_period_full (γ : Type) [Group γ] [MulDistribMulAction γ β] [DecidableEq β]
    [DecidableEq γ] (g : β) (n : ℕ) : ℕ :=
  findPeriodCore (fun l => decide ((⟨g, 1⟩ : SDE β γ) ^ l = 1)) n

/-- Class `SemidirectProductElementZp` from `groups/finite_field.py`: base
component in `Z_p` (the class coerces into `IntegerModRing(p)`, so `0` is
representable even though the intended group is `F_p*`), automorphism
component an exponent in `Z_{p-1}`. -/
structure ZpElt (p : ℕ) where
  g : ZMod p
  x : ZMod (p - 1)
deriving DecidableEq

/-- Method `_mul_`: `new_g = g1 * g2**x1 (mod p)`, `new_x = x1 * x2 (mod p-1)`. -/
def ZpElt.mul {p : ℕ} (a b : ZpElt p) : ZpElt p :=
  ⟨a.g * b.g ^ a.x.val, a.x * b.x⟩

/-- Method `SemidirectProductZp.one()`: the element `(1, 1)`. -/
def ZpElt.one (p : ℕ) : ZpElt p := ⟨1, 1⟩

/-- Method `__invert__`: `new_x = pow(x, -1, p-1)`, `new_g = pow(g, -new_x, p)`,
i.e. the modular inverse of `g ** new_x`; `pow` with negative exponent
requires its base to be invertible, which holds on actual group elements. -/
def ZpElt.inv {p : ℕ} (a : ZpElt p) : ZpElt p :=
  ⟨(a.g ^ (a.x⁻¹).val)⁻¹, a.x⁻¹⟩

/-- The finite-field platform's automorphism action for `p = 7`: the
exponent `x` acts on `F_7*` as `g ↦ g^x` (exponents mod `6`). -/
instance : MulDistribMulAction (ZMod 6)ˣ (ZMod 7)ˣ where
  smul x g := g ^ (x : ZMod 6).val
  one_smul := by decide
  mul_smul := by decide
  smul_mul := by decide
  smul_one := by decide

/-- The finite-field platform's automorphism action for `p = 5`: the
exponent `x` acts on `F_5*` as `g ↦ g^x` (exponents mod `4`). -/
instance : MulDistribMulAction (ZMod 4)ˣ (ZMod 5)ˣ where
  smul x g := g ^ (x : ZMod 4).val
  one_smul := by decide
  mul_smul := by decide
  smul_mul := by decide
  smul_one := by decide

/-- The concrete test element `(3, 5)` of the `p = 7` finite-field platform
(`3 ∈ F_7*`, automorphism exponent `5 ∈ (Z_6)ˣ`); its exact period is `2`. -/
def u7 : SDE (ZMod 7)ˣ (ZMod 6)ˣ :=
  ⟨⟨3, 5, by decide, by decide⟩, ⟨5, 5, by decide, by decide⟩⟩

/-- The concrete test element `(2, 3)` of the `p = 5` finite-field platform
(`2 ∈ F_5*`, automorphism exponent `3 ∈ (Z_4)ˣ`); its exact period is `2`,
while the base component `2` alone has multiplicative order `4`. -/
def u5 : SDE (ZMod 5)ˣ (ZMod 4)ˣ :=
  ⟨⟨2, 3, by decide, by decide⟩, ⟨3, 3, by decide, by decide⟩⟩

/-! ## Arithmetic facts about `ceilSqrt` -/

theorem ceilSqrtFrom_le_sq (n : ℕ) :
    ∀ (fuel m : ℕ), n ≤ (m + fuel) * (m + fuel) →
      n ≤ ceilSqrtFrom n m fuel * ceilSqrtFrom n m fuel := by
  intro fuel
  induction fuel with
  | zero => intro m hm; simpa using hm
  | succ fuel ih =>
    intro m hm
    show n ≤ (if n ≤ m * m then m else ceilSqrtFrom n (m + 1) fuel) *
      (if n ≤ m * m then m else ceilSqrtFrom n (m + 1) fuel)
    split
    · assumption
    · have hm' : n ≤ (m + 1 + fuel) * (m + 1 + fuel) := by
        rw [Nat.add_right_comm m 1 fuel]
        exact hm
      exact ih (m + 1) hm'

theorem ceilSqrtFrom_min (n : ℕ) :
    ∀ (fuel m j : ℕ), m ≤ j → n ≤ j * j → j ≤ m + fuel → ceilSqrtFrom n m fuel ≤ j := by
  intro fuel
  induction fuel with
  | zero => intro m j hmj _ _; exact hmj
  | succ fuel ih =>
    intro m j hmj hj hjm
    show (if n ≤ m * m then m else ceilSqrtFrom n (m + 1) fuel) ≤ j
    split
    · exact hmj
    · rename_i hnm
      have hmj' : m + 1 ≤ j := by
        rcases Nat.eq_or_lt_of_le hmj with h | h
        · exact absurd (h ▸ hj) hnm
        · omega
      exact ih (m + 1) j hmj' hj (by omega)

theorem le_ceilSqrt_sq (n : ℕ) : n ≤ ceilSqrt n * ceilSqrt n := by
  have hnn : n ≤ n * n := by
    rcases Nat.eq_zero_or_pos n with h | h
    · omega
    · calc n = 1 * n := by omega
        _ ≤ n * n := Nat.mul_le_mul_right n h
  exact ceilSqrtFrom_le_sq n n 0 (by simpa using hnn)

theorem ceilSqrt_le_self (n : ℕ) : ceilSqrt n ≤ n := by
  have hnn : n ≤ n * n := by
    rcases Nat.eq_zero_or_pos n with h | h
    · omega
    · calc n = 1 * n := by omega
        _ ≤ n * n := Nat.mul_le_mul_right n h
  exact ceilSqrtFrom_min n n 0 n (by omega) hnn (by omega)

theorem ceilSqrt_pos {n : ℕ} (hn : 0 < n) : 0 < ceilSqrt n := by
  rcases Nat.eq_zero_or_pos (ceilSqrt n) with h | h
  · have := le_ceilSqrt_sq n
    rw [h] at this
    omega
  · exact h

theorem modEq_eq_of_lt {n a b : ℕ} (h : a ≡ b [MOD n]) (ha : a < n) (hb : b < n) :
    a = b := by
  have h' : a % n = b % n := h
  rwa [Nat.mod_eq_of_lt ha, Nat.mod_eq_of_lt hb] at h'

/-! ## The baby-step table -/

theorem tlookup_buildTable_none {α : Type} [DecidableEq α] (step : α → α) :
    ∀ (k i : ℕ) (start : α) (acc : List (α × ℕ)) (a : α),
      (∀ d, d < k → step^[d] start ≠ a) →
      tlookup (buildTable step k i start acc) a = tlookup acc a := by
  intro k
  induction k with
  | zero => intro i start acc a _; rfl
  | succ k ih =>
    intro i start acc a hmiss
    show tlookup (buildTable step k (i + 1) (step start) ((start, i) :: acc)) a = _
    rw [ih (i + 1) (step start) ((start, i) :: acc) a
      (fun d hd => by
        have := hmiss (d + 1) (by omega)
        rwa [Function.iterate_succ_apply] at this)]
    have h0 : a ≠ start := fun h => hmiss 0 (by omega) h.symm
    simp [tlookup, h0]

theorem tlookup_buildTable_last {α : Type} [DecidableEq α] (step : α → α) :
    ∀ (k d₀ i : ℕ) (start : α) (acc : List (α × ℕ)) (a : α),
      d₀ < k → step^[d₀] start = a →
      (∀ d, d₀ < d → d < k → step^[d] start ≠ a) →
      tlookup (buildTable step k i start acc) a = some (i + d₀) := by
  intro k
  induction k with
  | zero => intro d₀ i start acc a hd; omega
  | succ k ih =>
    intro d₀ i start acc a hd hhit hlast
    show tlookup (buildTable step k (i + 1) (step start) ((start, i) :: acc)) a = _
    cases d₀ with
    | zero =>
      rw [tlookup_buildTable_none step k (i + 1) (step start) ((start, i) :: acc) a
        (fun d hdk => by
          have := hlast (d + 1) (by omega) (by omega)
          rwa [Function.iterate_succ_apply] at this)]
      have ha : a = start := hhit.symm
      simp [tlookup, ha]
    | succ d =>
      rw [ih d (i + 1) (step start) ((start, i) :: acc) a (by omega)
        (by rwa [← Function.iterate_succ_apply])
        (fun e hde hek => by
          have := hlast (e + 1) (by omega) (by omega)
          rwa [Function.iterate_succ_apply] at this)]
      congr 1
      omega

theorem tlookup_buildTable_none_iff {α : Type} [DecidableEq α] (step : α → α) :
    ∀ (k i : ℕ) (start : α) (acc : List (α × ℕ)) (a : α),
      tlookup (buildTable step k i start acc) a = none ↔
        (∀ d, d < k → step^[d] start ≠ a) ∧ tlookup acc a = none := by
  intro k
  induction k with
  | zero =>
    intro i start acc a
    constructor
    · intro h; exact ⟨fun d hd => by omega, h⟩
    · intro h; exact h.2
  | succ k ih =>
    intro i start acc a
    show tlookup (buildTable step k (i + 1) (step start) ((start, i) :: acc)) a = none ↔ _
    rw [ih]
    constructor
    · rintro ⟨h1, h2⟩
      have ha : a ≠ start := by
        intro h
        simp [tlookup, h] at h2
      refine ⟨fun d hd => ?_, ?_⟩
      · cases d with
        | zero => exact fun h => ha h.symm
        | succ d =>
          have := h1 d (by omega)
          rwa [← Function.iterate_succ_apply] at this
      · simpa [tlookup, ha] using h2
    · rintro ⟨h1, h2⟩
      have ha : a ≠ start := fun h => h1 0 (by omega) h.symm
      refine ⟨fun d hd => ?_, by simp [tlookup, ha, h2]⟩
      rw [← Function.iterate_succ_apply]
      exact h1 (d + 1) (by omega)

/-! ## The giant-step loop -/

theorem giantLoop_found {α : Type} [DecidableEq α] (gstep : α → α) (T : List (α × ℕ)) :
    ∀ (i₀ k i : ℕ) (temp : α) (j₀ : ℕ),
      i₀ < k →
      (∀ d, d < i₀ → tlookup T (gstep^[d] temp) = none) →
      tlookup T (gstep^[i₀] temp) = some j₀ →
      giantLoop gstep T k i temp = some (i + i₀, j₀) := by
  intro i₀
  induction i₀ with
  | zero =>
    intro k i temp j₀ hk _ hhit
    obtain ⟨k', rfl⟩ : ∃ k', k = k' + 1 := ⟨k - 1, by omega⟩
    show (match tlookup T temp with
      | some j => some (i, j)
      | none => giantLoop gstep T k' (i + 1) (gstep temp)) = _
    rw [show tlookup T temp = some j₀ from hhit]
    rfl
  | succ d ihd =>
    intro k i temp j₀ hk hmiss hhit
    obtain ⟨k', rfl⟩ : ∃ k', k = k' + 1 := ⟨k - 1, by omega⟩
    show (match tlookup T temp with
      | some j => some (i, j)
      | none => giantLoop gstep T k' (i + 1) (gstep temp)) = _
    rw [show tlookup T temp = none from hmiss 0 (by omega)]
    show giantLoop gstep T k' (i + 1) (gstep temp) = _
    rw [ihd k' (i + 1) (gstep temp) j₀ (by omega)
      (fun e he => by
        have := hmiss (e + 1) (by omega)
        rwa [Function.iterate_succ_apply] at this)
      (by rwa [← Function.iterate_succ_apply])]
    congr 2
    omega

theorem giantLoop_none_iff {α : Type} [DecidableEq α] (gstep : α → α) (T : List (α × ℕ)) :
    ∀ (k i : ℕ) (temp : α),
      giantLoop gstep T k i temp = none ↔
        ∀ d, d < k → tlookup T (gstep^[d] temp) = none := by
  intro k
  induction k with
  | zero =>
    intro i temp
    constructor
    · intro _ d hd; omega
    · intro _; rfl
  | succ k ih =>
    intro i temp
    show (match tlookup T temp with
      | some j => some (i, j)
      | none => giantLoop gstep T k (i + 1) (gstep temp)) = none ↔ _
    rcases hT : tlookup T temp with _ | j
    · show giantLoop gstep T k (i + 1) (gstep temp) = none ↔ _
      rw [ih]
      constructor
      · intro h d hd
        cases d with
        | zero => exact hT
        | succ d =>
          rw [Function.iterate_succ_apply]
          exact h d (by omega)
      · intro h d hd
        rw [← Function.iterate_succ_apply]
        exact h (d + 1) (by omega)
    · show some (i, j) = none ↔ _
      constructor
      · intro h; cases h
      · intro h
        have := h 0 (by omega)
        rw [Function.iterate_zero_apply] at this
        rw [hT] at this
        cases this

/-! ## One abstract pass of the meet-in-the-middle search -/

theorem bsgsRun_found {α : Type} [DecidableEq α] (ident : α) (step gstep : α → α)
    (h : α) (m i₀ j₀ : ℕ) (hi : i₀ < m) (hj : j₀ < m)
    (hinj : ∀ d₁ d₂, d₁ < m → d₂ < m → step^[d₁] ident = step^[d₂] ident → d₁ = d₂)
    (hmiss : ∀ d, d < i₀ → ∀ j, j < m → gstep^[d] h ≠ step^[j] ident)
    (hhit : gstep^[i₀] h = step^[j₀] ident) :
    bsgsRun ident step gstep h m = some (i₀, j₀) := by
  unfold bsgsRun
  have := giantLoop_found gstep (buildTable step m 0 ident []) i₀ m 0 h j₀ hi
    (fun d hd => by
      rw [tlookup_buildTable_none step m 0 ident [] (gstep^[d] h)
        (fun e he hcontra => hmiss d hd e he hcontra.symm)]
      rfl)
    (by
      rw [hhit, tlookup_buildTable_last step m j₀ 0 ident [] (step^[j₀] ident) hj rfl
        (fun e hje hem hcontra => by
          have := hinj e j₀ hem hj hcontra
          omega)]
      rw [Nat.zero_add])
  simpa using this

theorem bsgsRun_none_iff {α : Type} [DecidableEq α] (ident : α) (step gstep : α → α)
    (h : α) (m : ℕ) :
    bsgsRun ident step gstep h m = none ↔
      ∀ i, i < m → ∀ j, j < m → gstep^[i] h ≠ step^[j] ident := by
  unfold bsgsRun
  rw [giantLoop_none_iff]
  constructor
  · intro H i hi j hj hne
    have := (tlookup_buildTable_none_iff step m 0 ident [] (gstep^[i] h)).mp (H i hi)
    exact this.1 j hj hne.symm
  · intro H d hd
    rw [tlookup_buildTable_none_iff]
    exact ⟨fun j hj heq => H d hd j hj heq.symm, rfl⟩

/-! ## The step functions as explicit sequences -/

theorem iterate_mulRight_one {α : Type} [Monoid α] (g : α) (j : ℕ) :
    (fun t => t * g)^[j] 1 = g ^ j := by
  induction j with
  | zero => simp
  | succ j ih => rw [Function.iterate_succ_apply', ih, pow_succ]

theorem iterate_mulRight {α : Type} [Monoid α] (c h : α) (i : ℕ) :
    (fun t => t * c)^[i] h = h * c ^ i := by
  induction i with
  | zero => simp
  | succ i ih => rw [Function.iterate_succ_apply', ih, pow_succ, mul_assoc]

theorem iterate_addRight_zero {α : Type} [AddMonoid α] (g : α) (j : ℕ) :
    (fun t => t + g)^[j] 0 = j • g := by
  induction j with
  | zero => simp
  | succ j ih => rw [Function.iterate_succ_apply', ih, succ_nsmul]

theorem iterate_addRight {α : Type} [AddMonoid α] (c h : α) (i : ℕ) :
    (fun t => t + c)^[i] h = h + i • c := by
  induction i with
  | zero => simp
  | succ i ih => rw [Function.iterate_succ_apply', ih, succ_nsmul, add_assoc]

theorem iterate_sandwichStep {α : Type} [Monoid α] (a b Q : α) (i : ℕ) :
    (fun P => a * P * b)^[i] Q = a ^ i * Q * b ^ i := by
  induction i with
  | zero => simp
  | succ i ih =>
    rw [Function.iterate_succ_apply', ih]
    calc a * (a ^ i * Q * b ^ i) * b
        = (a * a ^ i) * Q * (b ^ i * b) := by simp [mul_assoc]
      _ = a ^ (i + 1) * Q * b ^ (i + 1) := by rw [← pow_succ', ← pow_succ]

/-! ## Unfolding `bsgs_dlp`'s branches -/

theorem ofGroup_one {α : Type} [Group α] : (GroupOps.ofGroup α).one = 1 := rfl

theorem ofGroup_mul {α : Type} [Group α] (a b : α) :
    (GroupOps.ofGroup α).mul a b = a * b := rfl

theorem ofGroup_inv {α : Type} [Group α] (a : α) :
    (GroupOps.ofGroup α).inv a = a⁻¹ := rfl

theorem opow_ofGroup {α : Type} [Group α] (g : α) (m : ℕ) :
    opow (GroupOps.ofGroup α) g m = g ^ m :=
  iterate_mulRight_one g m

theorem ofAddGroup_zero {α : Type} [AddGroup α] : (GroupOps.ofAddGroup α).zero = 0 := rfl

theorem ofAddGroup_add {α : Type} [AddGroup α] (a b : α) :
    (GroupOps.ofAddGroup α).add a b = a + b := rfl

theorem ofAddGroup_neg {α : Type} [AddGroup α] (a : α) :
    (GroupOps.ofAddGroup α).neg a = -a := rfl

theorem osmul_ofAddGroup {α : Type} [AddGroup α] (g : α) (m : ℕ) :
    osmul (GroupOps.ofAddGroup α) g m = m • g :=
  iterate_addRight_zero g m

theorem bsgs_dlp_mul_unfold {α : Type} [DecidableEq α] (ops : GroupOps α) (h g : α)
    (bound : ℕ) :
    bsgs_dlp ops h g bound "*" =
      match bsgsRun ops.one (fun t => ops.mul t g)
          (fun t => ops.mul t (ops.inv (opow ops g (ceilSqrt bound)))) h (ceilSqrt bound) with
      | some (i, j) => .ok (j + i * ceilSqrt bound)
      | none => .error .notFound := rfl

theorem bsgs_dlp_add_unfold {α : Type} [DecidableEq α] (ops : GroupOps α) (h g : α)
    (bound : ℕ) :
    bsgs_dlp ops h g bound "+" =
      match bsgsRun ops.zero (fun t => ops.add t g)
          (fun t => ops.add t (ops.neg (osmul ops g (ceilSqrt bound)))) h (ceilSqrt bound) with
      | some (i, j) => .ok (j + i * ceilSqrt bound)
      | none => .error .notFound := rfl

theorem bsgs_dlp_invalid_unfold {α : Type} [DecidableEq α] (ops : GroupOps α) (h g : α)
    (bound : ℕ) (op : String) (hne1 : op ≠ "*") (hne2 : op ≠ "+") :
    bsgs_dlp ops h g bound op = .error .invalidOperation := by
  unfold bsgs_dlp
  rw [if_neg hne1, if_neg hne2]

/-! ## Correctness of the multiplicative DLP branch -/

theorem bsgs_dlp_mul_ok {α : Type} [Group α] [DecidableEq α] (g : α) (ord t : ℕ)
    (hord : orderOf g = ord) (ht : t < ord) :
    bsgs_dlp (GroupOps.ofGroup α) (g ^ t) g ord "*" = .ok t := by
  have hop : 0 < ord := by omega
  set m := ceilSqrt ord with hm
  have hmpos : 0 < m := ceilSqrt_pos hop
  have hmle : m ≤ ord := ceilSqrt_le_self ord
  have hordm : ord ≤ m * m := le_ceilSqrt_sq ord
  have hmatch : ∀ i j : ℕ, (g ^ t * ((g ^ m)⁻¹) ^ i = g ^ j) ↔ (t ≡ j + i * m [MOD ord]) := by
    intro i j
    rw [inv_pow, ← pow_mul, mul_inv_eq_iff_eq_mul, ← pow_add, pow_eq_pow_iff_modEq, hord,
      Nat.mul_comm m i]
  set i₀ := t / m with hidef
  set j₀ := t % m with hjdef
  have hij : m * i₀ + j₀ = t := Nat.div_add_mod t m
  have hi₀ : i₀ < m := Nat.div_lt_of_lt_mul (lt_of_lt_of_le ht hordm)
  have hj₀ : j₀ < m := Nat.mod_lt _ hmpos
  have hinj : ∀ d₁ d₂, d₁ < m → d₂ < m →
      (fun t' => t' * g)^[d₁] (1 : α) = (fun t' => t' * g)^[d₂] 1 → d₁ = d₂ := by
    intro d₁ d₂ h₁ h₂ he
    rw [iterate_mulRight_one, iterate_mulRight_one] at he
    have hmod := pow_eq_pow_iff_modEq.mp he
    rw [hord] at hmod
    exact modEq_eq_of_lt hmod (lt_of_lt_of_le h₁ hmle) (lt_of_lt_of_le h₂ hmle)
  have hmiss : ∀ d, d < i₀ → ∀ j, j < m →
      (fun t' => t' * (g ^ m)⁻¹)^[d] (g ^ t) ≠ (fun t' => t' * g)^[j] 1 := by
    intro d hd j hj hEq
    rw [iterate_mulRight, iterate_mulRight_one] at hEq
    have hMod := (hmatch d j).mp hEq
    have hlt : j + d * m < t := by
      have h1 : (d + 1) * m ≤ i₀ * m := Nat.mul_le_mul_right m hd
      have h2 : m * i₀ ≤ t := by omega
      calc j + d * m < m + d * m := by omega
        _ = (d + 1) * m := by ring
        _ ≤ i₀ * m := h1
        _ ≤ t := by rw [Nat.mul_comm]; exact h2
    have := modEq_eq_of_lt hMod ht (by omega)
    omega
  have hhit : (fun t' => t' * (g ^ m)⁻¹)^[i₀] (g ^ t) = (fun t' => t' * g)^[j₀] 1 := by
    rw [iterate_mulRight, iterate_mulRight_one]
    refine (hmatch i₀ j₀).mpr ?_
    have : j₀ + i₀ * m = t := by rw [Nat.mul_comm i₀ m]; omega
    rw [this]
  have hrun := bsgsRun_found (1 : α) (fun t' => t' * g) (fun t' => t' * (g ^ m)⁻¹)
    (g ^ t) m i₀ j₀ hi₀ hj₀ hinj hmiss hhit
  rw [bsgs_dlp_mul_unfold]
  rw [← hm]
  simp only [ofGroup_mul, ofGroup_inv, ofGroup_one, opow_ofGroup]
  rw [hrun]
  show Except.ok (j₀ + i₀ * m) = Except.ok t
  congr 1
  rw [Nat.mul_comm i₀ m]
  omega

/-! ## Correctness of the additive DLP branch -/

theorem bsgs_dlp_add_ok {α : Type} [AddGroup α] [DecidableEq α] (g : α) (ord t : ℕ)
    (hord : addOrderOf g = ord) (ht : t < ord) :
    bsgs_dlp (GroupOps.ofAddGroup α) (t • g) g ord "+" = .ok t := by
  have hop : 0 < ord := by omega
  set m := ceilSqrt ord with hm
  have hmpos : 0 < m := ceilSqrt_pos hop
  have hmle : m ≤ ord := ceilSqrt_le_self ord
  have hordm : ord ≤ m * m := le_ceilSqrt_sq ord
  have hmatch : ∀ i j : ℕ, (t • g + i • (-(m • g)) = j • g) ↔ (t ≡ j + i * m [MOD ord]) := by
    intro i j
    rw [neg_nsmul, ← mul_nsmul, add_neg_eq_iff_eq_add, ← add_nsmul,
      nsmul_eq_nsmul_iff_modEq, hord, Nat.mul_comm m i]
  set i₀ := t / m with hidef
  set j₀ := t % m with hjdef
  have hij : m * i₀ + j₀ = t := Nat.div_add_mod t m
  have hi₀ : i₀ < m := Nat.div_lt_of_lt_mul (lt_of_lt_of_le ht hordm)
  have hj₀ : j₀ < m := Nat.mod_lt _ hmpos
  have hinj : ∀ d₁ d₂, d₁ < m → d₂ < m →
      (fun t' => t' + g)^[d₁] (0 : α) = (fun t' => t' + g)^[d₂] 0 → d₁ = d₂ := by
    intro d₁ d₂ h₁ h₂ he
    rw [iterate_addRight_zero, iterate_addRight_zero] at he
    have hmod := nsmul_eq_nsmul_iff_modEq.mp he
    rw [hord] at hmod
    exact modEq_eq_of_lt hmod (lt_of_lt_of_le h₁ hmle) (lt_of_lt_of_le h₂ hmle)
  have hmiss : ∀ d, d < i₀ → ∀ j, j < m →
      (fun t' => t' + -(m • g))^[d] (t • g) ≠ (fun t' => t' + g)^[j] 0 := by
    intro d hd j hj hEq
    rw [iterate_addRight, iterate_addRight_zero] at hEq
    have hMod := (hmatch d j).mp hEq
    have hlt : j + d * m < t := by
      have h1 : (d + 1) * m ≤ i₀ * m := Nat.mul_le_mul_right m hd
      have h2 : m * i₀ ≤ t := by omega
      calc j + d * m < m + d * m := by omega
        _ = (d + 1) * m := by ring
        _ ≤ i₀ * m := h1
        _ ≤ t := by rw [Nat.mul_comm]; exact h2
    have := modEq_eq_of_lt hMod ht (by omega)
    omega
  have hhit : (fun t' => t' + -(m • g))^[i₀] (t • g) = (fun t' => t' + g)^[j₀] 0 := by
    rw [iterate_addRight, iterate_addRight_zero]
    refine (hmatch i₀ j₀).mpr ?_
    have : j₀ + i₀ * m = t := by rw [Nat.mul_comm i₀ m]; omega
    rw [this]
  have hrun := bsgsRun_found (0 : α) (fun t' => t' + g) (fun t' => t' + -(m • g))
    (t • g) m i₀ j₀ hi₀ hj₀ hinj hmiss hhit
  rw [bsgs_dlp_add_unfold]
  rw [← hm]
  simp only [ofAddGroup_add, ofAddGroup_neg, ofAddGroup_zero, osmul_ofAddGroup]
  rw [hrun]
  show Except.ok (j₀ + i₀ * m) = Except.ok t
  congr 1
  rw [Nat.mul_comm i₀ m]
  omega

/-! ## Claim C1: the DLP round trip -/

/-- C1: for every cyclic group realization, a generator `g` of exact order
`ord` (stated elementarily: `g^ord = 1` and no smaller positive exponent
annihilates `g`), declared operation `"*"` or `"+"`, and `0 ≤ t < ord`,
`bsgs_dlp` on the target `g^t` (resp. `t • g`) with `bound = ord` returns
exactly `t`. -/
theorem claim_C1_dlp_roundtrip :
    (∀ (α : Type) [Group α] [DecidableEq α] (g : α) (ord t : ℕ),
        g ^ ord = 1 → (∀ k < ord, 0 < k → g ^ k ≠ 1) → t < ord →
        bsgs_dlp (GroupOps.ofGroup α) (g ^ t) g ord "*" = .ok t) ∧
    (∀ (α : Type) [AddGroup α] [DecidableEq α] (g : α) (ord t : ℕ),
        ord • g = 0 → (∀ k < ord, 0 < k → k • g ≠ 0) → t < ord →
        bsgs_dlp (GroupOps.ofAddGroup α) (t • g) g ord "+" = .ok t) := by
  constructor
  · intro α _ _ g ord t h1 h2 ht
    have hop : 0 < ord := by omega
    exact bsgs_dlp_mul_ok g ord t ((orderOf_eq_iff hop).mpr ⟨h1, h2⟩) ht
  · intro α _ _ g ord t h1 h2 ht
    have hop : 0 < ord := by omega
    exact bsgs_dlp_add_ok g ord t ((addOrderOf_eq_iff hop).mpr ⟨h1, h2⟩) ht

/-- Witness for C1 at `F_5`-like data: `g = ofAdd 1` has order `5` in
`Multiplicative (ZMod 5)` and the solver recovers `t = 3`. -/
theorem claim_C1_dlp_roundtrip_witness :
    bsgs_dlp (GroupOps.ofGroup (Multiplicative (ZMod 5)))
      (Multiplicative.ofAdd (1 : ZMod 5) ^ 3) (Multiplicative.ofAdd 1) 5 "*" = .ok 3 :=
  claim_C1_dlp_roundtrip.1 (Multiplicative (ZMod 5)) (Multiplicative.ofAdd 1) 5 3
    (by decide) (by decide) (by decide)

/-! ## Claim C7: the invalid-operation error -/

/-- C7: `bsgs_dlp` yields `InvalidOperation` precisely when the operation
string is neither `"*"` nor `"+"`, and then it does so for every platform
surface, target, base and bound alike — the error depends on nothing but
the operation string, which is the pure rendering of "reported immediately,
before any table is built or group operation performed". -/
theorem claim_C7_invalid_operation :
    ∀ op : String,
      (op ≠ "*" ∧ op ≠ "+") ↔
        ∀ (α : Type) [DecidableEq α] (ops : GroupOps α) (h g : α) (bound : ℕ),
          bsgs_dlp ops h g bound op = .error .invalidOperation := by
  intro op
  constructor
  · rintro ⟨h1, h2⟩ α _ ops h g bound
    exact bsgs_dlp_invalid_unfold ops h g bound op h1 h2
  · intro H
    constructor
    · rintro rfl
      have h1 : bsgs_dlp (GroupOps.ofGroup Unit) () () 0 "*" = .error .notFound := rfl
      have h2 := H Unit (GroupOps.ofGroup Unit) () () 0
      rw [h1] at h2
      injection h2 with h3
      exact BsgsError.noConfusion h3
    · rintro rfl
      have h1 : bsgs_dlp (GroupOps.ofGroup Unit) () () 0 "+" = .error .notFound := rfl
      have h2 := H Unit (GroupOps.ofGroup Unit) () () 0
      rw [h1] at h2
      injection h2 with h3
      exact BsgsError.noConfusion h3

/-- Witness for C7: the operation string `"?"` is rejected on a concrete
platform with the `InvalidOperation` error. -/
theorem claim_C7_invalid_operation_witness :
    bsgs_dlp (GroupOps.ofGroup (Multiplicative (ZMod 5))) (Multiplicative.ofAdd 1)
      (Multiplicative.ofAdd 1) 10 "?" = .error .invalidOperation :=
  (claim_C7_invalid_operation "?").mp ⟨by decide, by decide⟩ (Multiplicative (ZMod 5))
    (GroupOps.ofGroup (Multiplicative (ZMod 5))) (Multiplicative.ofAdd 1)
    (Multiplicative.ofAdd 1) 10

/-! ## Claim C4: what the baby-step table holds after a key collision

The Python loop `T[temp] = i` *overwrites* an existing binding, so when a
key recurs the finished dict maps it to the *largest* producing index, not
the smallest: the claim's "first-seen index wins" is false on the code. -/

/-- Counterexample to C4 as stated: over `Multiplicative (ZMod 2)` with
`g = ofAdd 1` and `m = ceilSqrt 5 = 3`, the identity key is produced at
baby-step indices `0` and `2` (both `< 3`), yet the finished table maps it
to `2`, not to the first-seen index `0`. -/
theorem claim_C4_counterexample :
    (fun t => (GroupOps.ofGroup (Multiplicative (ZMod 2))).mul t
        (Multiplicative.ofAdd 1))^[0] (GroupOps.ofGroup (Multiplicative (ZMod 2))).one =
      (1 : Multiplicative (ZMod 2)) ∧
    (fun t => (GroupOps.ofGroup (Multiplicative (ZMod 2))).mul t
        (Multiplicative.ofAdd 1))^[2] (GroupOps.ofGroup (Multiplicative (ZMod 2))).one =
      (1 : Multiplicative (ZMod 2)) ∧
    tlookup (dlpTable (GroupOps.ofGroup (Multiplicative (ZMod 2)))
      (Multiplicative.ofAdd 1) (ceilSqrt 5)) 1 ≠ some 0 ∧
    tlookup (dlpTable (GroupOps.ofGroup (Multiplicative (ZMod 2)))
      (Multiplicative.ofAdd 1) (ceilSqrt 5)) 1 = some 2 := by
  refine ⟨by decide, by decide, by decide, by decide⟩

/-- C4 (amended): when the same element key is produced at two distinct
baby-step indices `i1 < i2` (both in `[0, m)`, with `i2` the last
occurrence below `m`), the finished lookup table maps that key to the
*larger* index `i2` — the later insertion overwrites the earlier one, so
the first-seen index does *not* survive. -/
theorem claim_C4_amended_last_insertion_wins {α : Type} [DecidableEq α]
    (ops : GroupOps α) (g : α) (m : ℕ) (a : α) (i1 i2 : ℕ)
    (h12 : i1 < i2) (h2m : i2 < m)
    (hk1 : (fun t => ops.mul t g)^[i1] ops.one = a)
    (hk2 : (fun t => ops.mul t g)^[i2] ops.one = a)
    (hlast : ∀ d, i2 < d → d < m → (fun t => ops.mul t g)^[d] ops.one ≠ a) :
    tlookup (dlpTable ops g m) a = some i2 ∧ tlookup (dlpTable ops g m) a ≠ some i1 := by
  unfold dlpTable
  have h := tlookup_buildTable_last (fun t => ops.mul t g) m i2 0 ops.one [] a h2m hk2 hlast
  rw [Nat.zero_add] at h
  refine ⟨h, ?_⟩
  rw [h]
  intro hc
  simp only [Option.some.injEq] at hc
  omega

/-- Witness for the amended C4, at the concrete collision over
`Multiplicative (ZMod 2)` with `m = 3`: the surviving binding is `2`. -/
theorem claim_C4_amended_witness :
    tlookup (dlpTable (GroupOps.ofGroup (Multiplicative (ZMod 2)))
        (Multiplicative.ofAdd 1) 3) 1 = some 2 ∧
      tlookup (dlpTable (GroupOps.ofGroup (Multiplicative (ZMod 2)))
        (Multiplicative.ofAdd 1) 3) 1 ≠ some 0 :=
  claim_C4_amended_last_insertion_wins (GroupOps.ofGroup (Multiplicative (ZMod 2)))
    (Multiplicative.ofAdd 1) 3 1 0 2 (by decide) (by decide) (by decide) (by decide)
    (fun d h2d hd3 => by interval_cases d)

/-! ## Sandwich iterates and the SDLP giant step -/

theorem bsgs_sdlp_unfold {α : Type} [Group α] [DecidableEq α] (w u v : α) (bound : ℕ) :
    bsgs_sdlp w u v bound =
      match bsgsRun 1 (fun P => u * P * v)
          (fun P => u ^ (-(ceilSqrt bound : ℤ)) * P * v ^ (-(ceilSqrt bound : ℤ)))
          w (ceilSqrt bound) with
      | some (i, j) => .ok (i * ceilSqrt bound + j)
      | none => .error .notFound := rfl

theorem conj_shift {α : Type} [Group α] (a b w S : α) :
    a⁻¹ * w * b⁻¹ = S ↔ w = a * S * b := by
  constructor
  · intro hE
    rw [← hE]
    group
  · intro hE
    rw [hE]
    group

theorem sandwich_zero {α : Type} [Group α] (u v : α) : sandwich u v 0 = 1 := rfl

theorem sandwich_eq_pow {α : Type} [Group α] (u v : α) (t : ℕ) :
    sandwich u v t = u ^ t * v ^ t := by
  unfold sandwich
  rw [iterate_sandwichStep, mul_one]

theorem sandwich_add {α : Type} [Group α] (u v : α) (a b : ℕ) :
    sandwich u v (a + b) = u ^ a * sandwich u v b * v ^ a := by
  unfold sandwich
  rw [Function.iterate_add_apply]
  exact iterate_sandwichStep u v _ a

theorem zpow_neg_natMul {α : Type} [Group α] (u : α) (m i : ℕ) :
    (u ^ (-(m : ℤ))) ^ i = (u ^ (m * i))⁻¹ := by
  rw [← zpow_natCast (u ^ (-(m : ℤ))) i, ← zpow_mul, ← zpow_natCast u (m * i), ← zpow_neg]
  congr 1
  push_cast
  ring

/-- The `i`-th SDLP giant step undoes `i*m` sandwich applications:
`gstep^[i] w = S  ↔  w = sandwich applied (m*i) more times to `S`. -/
theorem sdlp_giant_iterate {α : Type} [Group α] (u v w : α) (m i : ℕ) :
    (fun P => u ^ (-(m : ℤ)) * P * v ^ (-(m : ℤ)))^[i] w =
      (u ^ (m * i))⁻¹ * w * (v ^ (m * i))⁻¹ := by
  rw [iterate_sandwichStep, zpow_neg_natMul, zpow_neg_natMul]

/-! ## Claim C3: when `NotFound` is raised -/

theorem bsgs_dlp_mul_notFound_iff {α : Type} [Group α] [DecidableEq α] (h g : α)
    (bound : ℕ) :
    bsgs_dlp (GroupOps.ofGroup α) h g bound "*" = .error .notFound ↔
      ∀ s, s < ceilSqrt bound * ceilSqrt bound → g ^ s ≠ h := by
  set m := ceilSqrt bound with hm
  rw [bsgs_dlp_mul_unfold, ← hm]
  simp only [ofGroup_mul, ofGroup_inv, ofGroup_one, opow_ofGroup]
  have hmatch : ∀ i j : ℕ, ((fun t => t * (g ^ m)⁻¹)^[i] h = (fun t => t * g)^[j] 1) ↔
      g ^ (j + m * i) = h := by
    intro i j
    rw [iterate_mulRight, iterate_mulRight_one, inv_pow, ← pow_mul,
      mul_inv_eq_iff_eq_mul, ← pow_add]
    constructor
    · intro hE; exact hE.symm
    · intro hE; exact hE.symm
  rcases hbr : bsgsRun 1 (fun t => t * g) (fun t => t * (g ^ m)⁻¹) h m with _ | ij
  · have hall := (bsgsRun_none_iff 1 (fun t => t * g) (fun t => t * (g ^ m)⁻¹) h m).mp hbr
    constructor
    · intro _ s hs hgs
      have hmpos : 0 < m := by
        rcases Nat.eq_zero_or_pos m with h0 | h0
        · rw [h0] at hs; omega
        · exact h0
      have hi : s / m < m := Nat.div_lt_of_lt_mul hs
      have hj : s % m < m := Nat.mod_lt _ hmpos
      refine hall (s / m) hi (s % m) hj ?_
      rw [hmatch]
      rw [show s % m + m * (s / m) = s from Nat.mod_add_div s m]
      exact hgs
    · intro _; rfl
  · obtain ⟨i, j⟩ := ij
    constructor
    · intro hE
      exfalso
      revert hE
      simp
    · intro hno
      exfalso
      have : bsgsRun 1 (fun t => t * g) (fun t => t * (g ^ m)⁻¹) h m = none := by
        rw [bsgsRun_none_iff]
        intro i' hi' j' hj' hEq
        have hgs := (hmatch i' j').mp hEq
        have hlt : j' + m * i' < m * m := by
          have h1 : m * (i' + 1) ≤ m * m := Nat.mul_le_mul_left m hi'
          have h2 : m * (i' + 1) = m * i' + m := by ring
          omega
        exact hno (j' + m * i') hlt hgs
      rw [hbr] at this
      cases this

theorem bsgs_dlp_add_notFound_iff {α : Type} [AddGroup α] [DecidableEq α] (h g : α)
    (bound : ℕ) :
    bsgs_dlp (GroupOps.ofAddGroup α) h g bound "+" = .error .notFound ↔
      ∀ s, s < ceilSqrt bound * ceilSqrt bound → s • g ≠ h := by
  set m := ceilSqrt bound with hm
  rw [bsgs_dlp_add_unfold, ← hm]
  simp only [ofAddGroup_add, ofAddGroup_neg, ofAddGroup_zero, osmul_ofAddGroup]
  have hmatch : ∀ i j : ℕ, ((fun t => t + -(m • g))^[i] h = (fun t => t + g)^[j] 0) ↔
      (j + m * i) • g = h := by
    intro i j
    rw [iterate_addRight, iterate_addRight_zero, neg_nsmul, ← mul_nsmul,
      add_neg_eq_iff_eq_add, ← add_nsmul]
    constructor
    · intro hE; exact hE.symm
    · intro hE; exact hE.symm
  rcases hbr : bsgsRun 0 (fun t => t + g) (fun t => t + -(m • g)) h m with _ | ij
  · have hall := (bsgsRun_none_iff 0 (fun t => t + g) (fun t => t + -(m • g)) h m).mp hbr
    constructor
    · intro _ s hs hgs
      have hmpos : 0 < m := by
        rcases Nat.eq_zero_or_pos m with h0 | h0
        · rw [h0] at hs; omega
        · exact h0
      have hi : s / m < m := Nat.div_lt_of_lt_mul hs
      have hj : s % m < m := Nat.mod_lt _ hmpos
      refine hall (s / m) hi (s % m) hj ?_
      rw [hmatch]
      rw [show s % m + m * (s / m) = s from Nat.mod_add_div s m]
      exact hgs
    · intro _; rfl
  · obtain ⟨i, j⟩ := ij
    constructor
    · intro hE
      exfalso
      revert hE
      simp
    · intro hno
      exfalso
      have : bsgsRun 0 (fun t => t + g) (fun t => t + -(m • g)) h m = none := by
        rw [bsgsRun_none_iff]
        intro i' hi' j' hj' hEq
        have hgs := (hmatch i' j').mp hEq
        have hlt : j' + m * i' < m * m := by
          have h1 : m * (i' + 1) ≤ m * m := Nat.mul_le_mul_left m hi'
          have h2 : m * (i' + 1) = m * i' + m := by ring
          omega
        exact hno (j' + m * i') hlt hgs
      rw [hbr] at this
      cases this

theorem bsgs_sdlp_notFound_iff {α : Type} [Group α] [DecidableEq α] (w u v : α)
    (bound : ℕ) :
    bsgs_sdlp w u v bound = .error .notFound ↔
      ∀ s, s < ceilSqrt bound * ceilSqrt bound → sandwich u v s ≠ w := by
  set m := ceilSqrt bound with hm
  rw [bsgs_sdlp_unfold, ← hm]
  have hmatch : ∀ i j : ℕ,
      ((fun P => u ^ (-(m : ℤ)) * P * v ^ (-(m : ℤ)))^[i] w = (fun P => u * P * v)^[j] 1) ↔
        sandwich u v (m * i + j) = w := by
    intro i j
    rw [sdlp_giant_iterate, conj_shift]
    show w = u ^ (m * i) * sandwich u v j * v ^ (m * i) ↔ _
    rw [← sandwich_add]
    constructor
    · intro hE; exact hE.symm
    · intro hE; exact hE.symm
  rcases hbr : bsgsRun 1 (fun P => u * P * v)
      (fun P => u ^ (-(m : ℤ)) * P * v ^ (-(m : ℤ))) w m with _ | ij
  · have hall := (bsgsRun_none_iff 1 (fun P => u * P * v)
      (fun P => u ^ (-(m : ℤ)) * P * v ^ (-(m : ℤ))) w m).mp hbr
    constructor
    · intro _ s hs hgs
      have hmpos : 0 < m := by
        rcases Nat.eq_zero_or_pos m with h0 | h0
        · rw [h0] at hs; omega
        · exact h0
      have hi : s / m < m := Nat.div_lt_of_lt_mul hs
      have hj : s % m < m := Nat.mod_lt _ hmpos
      refine hall (s / m) hi (s % m) hj ?_
      rw [hmatch]
      rw [show m * (s / m) + s % m = s from Nat.div_add_mod s m]
      exact hgs
    · intro _; rfl
  · obtain ⟨i, j⟩ := ij
    constructor
    · intro hE
      exfalso
      revert hE
      simp
    · intro hno
      exfalso
      have : bsgsRun 1 (fun P => u * P * v)
          (fun P => u ^ (-(m : ℤ)) * P * v ^ (-(m : ℤ))) w m = none := by
        rw [bsgsRun_none_iff]
        intro i' hi' j' hj' hEq
        have hgs := (hmatch i' j').mp hEq
        have hlt : m * i' + j' < m * m := by
          have h1 : m * (i' + 1) ≤ m * m := Nat.mul_le_mul_left m hi'
          have h2 : m * (i' + 1) = m * i' + m := by ring
          omega
        exact hno (m * i' + j') hlt hgs
      rw [hbr] at this
      cases this

/-- C3 is false as stated: with `bound = 5` over `Multiplicative (ZMod 11)`
and generator `ofAdd 1`, the target `ofAdd 7` has no solving exponent below
the bound — its minimal exponent is `7 ≥ 5` — yet the solver *returns* `7`
(the match lands in the giant-step window `[bound, ceil(√bound)²)`),
instead of raising `NotFound`. -/
theorem claim_C3_counterexample :
    (∀ s, s < 5 → Multiplicative.ofAdd (1 : ZMod 11) ^ s ≠ Multiplicative.ofAdd 7) ∧
    bsgs_dlp (GroupOps.ofGroup (Multiplicative (ZMod 11))) (Multiplicative.ofAdd 7)
      (Multiplicative.ofAdd 1) 5 "*" = .ok 7 :=
  ⟨by decide, rfl⟩

/-- C3 (amended): each solver raises `NotFound` exactly when the instance
has no solving exponent strictly below `m²` for `m = ceilSqrt bound` (in
particular whenever no solution exists at all); since `bound ≤ m²`, a
minimal exponent that is `≥ bound` but `< m²` is still found and returned,
so the bound itself is not the raising threshold. -/
theorem claim_C3_amended_notFound_iff :
    (∀ (α : Type) [Group α] [DecidableEq α] (h g : α) (bound : ℕ),
        bsgs_dlp (GroupOps.ofGroup α) h g bound "*" = .error .notFound ↔
          ∀ s, s < ceilSqrt bound * ceilSqrt bound → g ^ s ≠ h) ∧
    (∀ (α : Type) [AddGroup α] [DecidableEq α] (h g : α) (bound : ℕ),
        bsgs_dlp (GroupOps.ofAddGroup α) h g bound "+" = .error .notFound ↔
          ∀ s, s < ceilSqrt bound * ceilSqrt bound → s • g ≠ h) ∧
    (∀ (α : Type) [Group α] [DecidableEq α] (w u v : α) (bound : ℕ),
        bsgs_sdlp w u v bound = .error .notFound ↔
          ∀ s, s < ceilSqrt bound * ceilSqrt bound → sandwich u v s ≠ w) :=
  ⟨fun α _ _ h g bound => bsgs_dlp_mul_notFound_iff h g bound,
   fun α _ _ h g bound => bsgs_dlp_add_notFound_iff h g bound,
   fun α _ _ w u v bound => bsgs_sdlp_notFound_iff w u v bound⟩

/-- Witness for the amended C3: a target that is not a power of the base at
all makes the solver raise `NotFound` at a concrete bound. -/
theorem claim_C3_amended_witness :
    bsgs_dlp (GroupOps.ofGroup (Multiplicative (ZMod 5))) (Multiplicative.ofAdd 1)
      (Multiplicative.ofAdd 0) 2 "*" = .error .notFound :=
  (claim_C3_amended_notFound_iff.1 (Multiplicative (ZMod 5))
    (Multiplicative.ofAdd 1) (Multiplicative.ofAdd 0) 2).mpr (by decide)

/-! ## Components of semidirect powers -/

theorem SDE.mul_def (a b : SDE β γ) : a * b = ⟨a.g * a.x • b.g, a.x * b.x⟩ := rfl

theorem SDE.one_def : (1 : SDE β γ) = ⟨1, 1⟩ := rfl

theorem SDE.pow_add_g (u : SDE β γ) (a b : ℕ) :
    (u ^ (a + b)).g = (u ^ a).g * (u ^ a).x • (u ^ b).g := by
  rw [pow_add]
  rfl

theorem SDE.pow_g_one_of_exact_dvd (u : SDE β γ) (r : ℕ) (h1 : (u ^ r).g = 1) :
    ∀ q, (u ^ (r * q)).g = 1 := by
  intro q
  induction q with
  | zero => simp [SDE.one_def]
  | succ q ih =>
    have : r * (q + 1) = r * q + r := by ring
    rw [this, SDE.pow_add_g, ih, one_mul, h1, smul_one]

theorem SDE.pow_g_cancel (u : SDE β γ) (a c : ℕ)
    (heq : (u ^ a).g = (u ^ (a + c)).g) : (u ^ c).g = 1 := by
  rw [SDE.pow_add_g] at heq
  have h2 : (u ^ a).g * (u ^ a).x • (u ^ c).g = (u ^ a).g * 1 := by
    rw [mul_one]
    exact heq.symm
  have h3 : (u ^ a).x • (u ^ c).g = 1 := mul_left_cancel h2
  have h4 : (u ^ a).x • (u ^ c).g = (u ^ a).x • (1 : β) := by
    rw [smul_one]
    exact h3
  exact smul_left_cancel _ h4

/-- Within one exact period, distinct exponents give distinct base
components of `u^k` — this is what makes the sandwich baby table
collision-free. -/
theorem SDE.pow_g_inj_of_exact_period (u : SDE β γ) (r : ℕ) (hper : IsExactPeriod u r) :
    ∀ a b, a < r → b < r → (u ^ a).g = (u ^ b).g → a = b := by
  obtain ⟨hr, h1, hmin⟩ := hper
  have key : ∀ a b, a < b → b < r → (u ^ a).g = (u ^ b).g → False := by
    intro a b hab hbr heq
    have hc : (u ^ (b - a)).g = 1 := by
      refine SDE.pow_g_cancel u a (b - a) ?_
      rwa [show a + (b - a) = b by omega]
    exact hmin (b - a) (by omega) (by omega) hc
  intro a b ha hb heq
  rcases Nat.lt_trichotomy a b with h | h | h
  · exact absurd (key a b h hb heq) id
  · exact h
  · exact absurd (key b a h ha heq.symm) id

theorem sandwich_vpartner_eq (u : SDE β γ) (k : ℕ) :
    sandwich u (vpartner u) k = ⟨(u ^ k).g, 1⟩ := by
  induction k with
  | zero =>
    show (1 : SDE β γ) = _
    rw [pow_zero]
    rfl
  | succ k ih =>
    unfold sandwich at ih ⊢
    rw [Function.iterate_succ_apply', ih]
    show SDE.mk ((u.g * u.x • (u ^ k).g) * (u.x * 1) • (1 : β)) ((u.x * 1) * u.x⁻¹) = _
    rw [SDE.mk.injEq]
    constructor
    · rw [smul_one, mul_one, pow_succ']
      rfl
    · rw [mul_one, mul_inv_cancel]

/-! ## Claim C2: the SDLP round trip -/

/-- Meet-in-the-middle correctness of `bsgs_sdlp` for any pair `(u, v)`
whose sandwich iterates are injective below the bound. -/
theorem bsgs_sdlp_ok_of_inj {α : Type} [Group α] [DecidableEq α] (u v : α) (r t : ℕ)
    (hinj : ∀ a b, a < r → b < r → sandwich u v a = sandwich u v b → a = b)
    (ht : t < r) :
    bsgs_sdlp (sandwich u v t) u v r = .ok t := by
  have hrpos : 0 < r := by omega
  set m := ceilSqrt r with hm
  have hmpos : 0 < m := ceilSqrt_pos hrpos
  have hmle : m ≤ r := ceilSqrt_le_self r
  have hrm : r ≤ m * m := le_ceilSqrt_sq r
  set i₀ := t / m with hidef
  set j₀ := t % m with hjdef
  have hij : m * i₀ + j₀ = t := Nat.div_add_mod t m
  have hi₀ : i₀ < m := Nat.div_lt_of_lt_mul (lt_of_lt_of_le ht hrm)
  have hj₀ : j₀ < m := Nat.mod_lt _ hmpos
  have hmatch : ∀ i j : ℕ,
      ((fun P => u ^ (-(m : ℤ)) * P * v ^ (-(m : ℤ)))^[i] (sandwich u v t) =
          sandwich u v j) ↔
        sandwich u v (m * i + j) = sandwich u v t := by
    intro i j
    rw [sdlp_giant_iterate, conj_shift, ← sandwich_add]
    constructor
    · exact fun hE => hE.symm
    · exact fun hE => hE.symm
  have hinj' : ∀ d₁ d₂, d₁ < m → d₂ < m →
      (fun P => u * P * v)^[d₁] (1 : α) = (fun P => u * P * v)^[d₂] 1 → d₁ = d₂ := by
    intro d₁ d₂ h1 h2 he
    exact hinj d₁ d₂ (lt_of_lt_of_le h1 hmle) (lt_of_lt_of_le h2 hmle) he
  have hmiss : ∀ d, d < i₀ → ∀ j, j < m →
      (fun P => u ^ (-(m : ℤ)) * P * v ^ (-(m : ℤ)))^[d] (sandwich u v t) ≠
        (fun P => u * P * v)^[j] 1 := by
    intro d hd j hj hEq
    have hS := (hmatch d j).mp hEq
    have hlt : m * d + j < t := by
      have h1 : m * (d + 1) ≤ m * i₀ := Nat.mul_le_mul_left m hd
      have h2 : m * (d + 1) = m * d + m := by ring
      omega
    have := hinj (m * d + j) t (by omega) ht hS
    omega
  have hhit : (fun P => u ^ (-(m : ℤ)) * P * v ^ (-(m : ℤ)))^[i₀] (sandwich u v t) =
      (fun P => u * P * v)^[j₀] 1 := by
    refine (hmatch i₀ j₀).mpr ?_
    rw [show m * i₀ + j₀ = t from hij]
  have hrun := bsgsRun_found 1 (fun P => u * P * v)
    (fun P => u ^ (-(m : ℤ)) * P * v ^ (-(m : ℤ))) (sandwich u v t) m i₀ j₀ hi₀ hj₀
    hinj' hmiss hhit
  rw [bsgs_sdlp_unfold, ← hm, hrun]
  show Except.ok (i₀ * m + j₀) = Except.ok t
  congr 1
  rw [Nat.mul_comm i₀ m]
  omega

/-- C2: for every semidirect element `u` of exact period `r` (the value
`find_period` computes), partner `v = (1, u.x⁻¹)` as the callers build it,
and `0 ≤ t < r`, if `w` is the `t`-th iterate of `P ↦ u·P·v` from the
identity then `bsgs_sdlp (w, (u, v), r)` returns exactly `t`. -/
theorem claim_C2_sdlp_roundtrip :
    ∀ (β γ : Type) [Group β] [Group γ] [MulDistribMulAction γ β] [DecidableEq β]
      [DecidableEq γ] (u : SDE β γ) (r t : ℕ),
      IsExactPeriod u r → t < r →
      bsgs_sdlp (sandwich u (vpartner u) t) u (vpartner u) r = .ok t := by
  intro β γ _ _ _ _ _ u r t hper ht
  refine bsgs_sdlp_ok_of_inj u (vpartner u) r t ?_ ht
  intro a b ha hb heq
  rw [sandwich_vpartner_eq, sandwich_vpartner_eq] at heq
  have hg := congrArg SDE.g heq
  exact SDE.pow_g_inj_of_exact_period u r hper a b ha hb hg

/-- Witness for C2 on the `p = 7` finite-field platform: `u7 = (3, 5)` has
exact period `2`, and the solver recovers the planted exponent `t = 1`. -/
theorem claim_C2_sdlp_roundtrip_witness :
    bsgs_sdlp (sandwich u7 (vpartner u7) 1) u7 (vpartner u7) 2 = .ok 1 :=
  claim_C2_sdlp_roundtrip (ZMod 7)ˣ (ZMod 6)ˣ u7 2 1
    (show IsExactPeriod u7 2 from ⟨by decide, by decide, by decide⟩) (by decide)

/-! ## The factor-stripping loop of `find_period` -/

theorem stripLoop_dvd (test : ℕ → Bool) (p : ℕ) (hp : p.Prime) :
    ∀ (e length : ℕ), 0 < length → e ≤ length.factorization p →
      0 < stripLoop test p length e ∧ stripLoop test p length e ∣ length ∧
        ∀ q, q ≠ p → (stripLoop test p length e).factorization q =
          length.factorization q := by
  intro e
  induction e with
  | zero => intro length hl _; exact ⟨hl, dvd_refl _, fun _ _ => rfl⟩
  | succ e ih =>
    intro length hl he
    have hpd : p ∣ length := by
      have h1 : p ^ 1 ∣ length :=
        (Nat.Prime.pow_dvd_iff_le_factorization hp hl.ne').mpr (by omega)
      rwa [pow_one] at h1
    have hl0 : 0 < length / p := Nat.div_pos (Nat.le_of_dvd hl hpd) hp.pos
    have hfl : (length / p).factorization = length.factorization - p.factorization :=
      Nat.factorization_div hpd
    have hflp : (length / p).factorization p = length.factorization p - 1 := by
      rw [hfl, Finsupp.tsub_apply, hp.factorization, Finsupp.single_eq_same]
    have hflq : ∀ q, q ≠ p → (length / p).factorization q = length.factorization q := by
      intro q hq
      rw [hfl, Finsupp.tsub_apply, hp.factorization, Finsupp.single_eq_of_ne (Ne.symm hq),
        Nat.sub_zero]
    rw [show stripLoop test p length (e + 1) =
      if test (length / p) then stripLoop test p (length / p) e else length from rfl]
    split
    · obtain ⟨h1, h2, h3⟩ := ih (length / p) hl0 (by omega)
      exact ⟨h1, h2.trans (Nat.div_dvd_of_dvd hpd),
        fun q hq => (h3 q hq).trans (hflq q hq)⟩
    · exact ⟨hl, dvd_refl _, fun _ _ => rfl⟩

theorem stripLoop_exact (test : ℕ → Bool) (p : ℕ) (hp : p.Prime) (r : ℕ)
    (hchar : ∀ k, test k = true ↔ r ∣ k) (hr : 0 < r) :
    ∀ (e length : ℕ), 0 < length → r ∣ length → length.factorization p = e →
      0 < stripLoop test p length e ∧ r ∣ stripLoop test p length e ∧
        stripLoop test p length e ∣ length ∧
        (stripLoop test p length e).factorization p = r.factorization p ∧
        ∀ q, q ≠ p → (stripLoop test p length e).factorization q =
          length.factorization q := by
  intro e
  induction e with
  | zero =>
    intro length hl hrl hfe
    refine ⟨hl, hrl, dvd_refl _, ?_, fun _ _ => rfl⟩
    show length.factorization p = r.factorization p
    have hle := (Nat.factorization_le_iff_dvd hr.ne' hl.ne').mpr hrl
    have := Finsupp.le_def.mp hle p
    omega
  | succ e ih =>
    intro length hl hrl hfe
    have hpd : p ∣ length := by
      have h1 : p ^ 1 ∣ length :=
        (Nat.Prime.pow_dvd_iff_le_factorization hp hl.ne').mpr (by omega)
      rwa [pow_one] at h1
    have hl0 : 0 < length / p := Nat.div_pos (Nat.le_of_dvd hl hpd) hp.pos
    have hfl : (length / p).factorization = length.factorization - p.factorization :=
      Nat.factorization_div hpd
    have hflp : (length / p).factorization p = length.factorization p - 1 := by
      rw [hfl, Finsupp.tsub_apply, hp.factorization, Finsupp.single_eq_same]
    have hflq : ∀ q, q ≠ p → (length / p).factorization q = length.factorization q := by
      intro q hq
      rw [hfl, Finsupp.tsub_apply, hp.factorization, Finsupp.single_eq_of_ne (Ne.symm hq),
        Nat.sub_zero]
    have hrle : r.factorization p ≤ e + 1 := by
      have hle := (Nat.factorization_le_iff_dvd hr.ne' hl.ne').mpr hrl
      have := Finsupp.le_def.mp hle p
      omega
    rw [show stripLoop test p length (e + 1) =
      if test (length / p) then stripLoop test p (length / p) e else length from rfl]
    split
    · rename_i htest
      have hrdvd : r ∣ length / p := (hchar _).mp htest
      obtain ⟨h1, h2, h3, h4, h5⟩ := ih (length / p) hl0 hrdvd (by rw [hflp, hfe]; omega)
      exact ⟨h1, h2, h3.trans (Nat.div_dvd_of_dvd hpd), h4,
        fun q hq => (h5 q hq).trans (hflq q hq)⟩
    · rename_i htest
      have hnotdvd : ¬r ∣ length / p := fun hcon => htest ((hchar _).mpr hcon)
      have hrpe : e < r.factorization p := by
        by_contra hcon
        push_neg at hcon
        apply hnotdvd
        rw [← Nat.factorization_le_iff_dvd hr.ne' hl0.ne', Finsupp.le_def]
        intro q
        rcases eq_or_ne q p with rfl | hq
        · rw [hflp, hfe]
          omega
        · rw [hflq q hq]
          exact Finsupp.le_def.mp
            ((Nat.factorization_le_iff_dvd hr.ne' hl.ne').mpr hrl) q
      exact ⟨hl, hrl, dvd_refl _, by omega, fun _ _ => rfl⟩

theorem foldStrip_dvd (test : ℕ → Bool) (n : ℕ) :
    ∀ ps : List ℕ, ps.Nodup → (∀ p ∈ ps, p.Prime) →
      ∀ length, 0 < length →
        (∀ p ∈ ps, length.factorization p = n.primeFactorsList.count p) →
        0 < ps.foldl (fun len p => stripLoop test p len (n.primeFactorsList.count p)) length ∧
        ps.foldl (fun len p => stripLoop test p len (n.primeFactorsList.count p)) length
          ∣ length ∧
        ∀ q, q ∉ ps →
          (ps.foldl (fun len p =>
            stripLoop test p len (n.primeFactorsList.count p)) length).factorization q =
            length.factorization q := by
  intro ps
  induction ps with
  | nil => intro _ _ length hl _; exact ⟨hl, dvd_refl _, fun _ _ => rfl⟩
  | cons p ps ih =>
    intro hnodup hprime length hl hcount
    simp only [List.foldl_cons]
    have hp : p.Prime := hprime p (List.mem_cons_self p ps)
    have hee : n.primeFactorsList.count p ≤ length.factorization p := by
      rw [hcount p (List.mem_cons_self p ps)]
    obtain ⟨h1, h2, h3⟩ :=
      stripLoop_dvd test p hp (n.primeFactorsList.count p) length hl hee
    obtain ⟨hpnotin, hnodup'⟩ := List.nodup_cons.mp hnodup
    obtain ⟨g1, g2, g3⟩ := ih hnodup'
      (fun q hq => hprime q (List.mem_cons_of_mem p hq))
      (stripLoop test p length (n.primeFactorsList.count p)) h1
      (fun q hq => by
        have hqp : q ≠ p := fun hcon => hpnotin (hcon ▸ hq)
        rw [h3 q hqp, hcount q (List.mem_cons_of_mem p hq)])
    refine ⟨g1, g2.trans h2, fun q hq => ?_⟩
    have hqp : q ≠ p := fun hcon => hq (hcon ▸ List.mem_cons_self p ps)
    have hqps : q ∉ ps := fun hcon => hq (List.mem_cons_of_mem p hcon)
    rw [g3 q hqps, h3 q hqp]

theorem foldStrip_exact (test : ℕ → Bool) (n r : ℕ)
    (hchar : ∀ k, test k = true ↔ r ∣ k) (hr : 0 < r) :
    ∀ ps : List ℕ, ps.Nodup → (∀ p ∈ ps, p.Prime) →
      ∀ length, 0 < length → r ∣ length →
        (∀ p ∈ ps, length.factorization p = n.primeFactorsList.count p) →
        0 < ps.foldl (fun len p => stripLoop test p len (n.primeFactorsList.count p)) length ∧
        r ∣ ps.foldl (fun len p => stripLoop test p len (n.primeFactorsList.count p)) length ∧
        ps.foldl (fun len p => stripLoop test p len (n.primeFactorsList.count p)) length
          ∣ length ∧
        (∀ p ∈ ps,
          (ps.foldl (fun len p =>
            stripLoop test p len (n.primeFactorsList.count p)) length).factorization p =
            r.factorization p) ∧
        ∀ q, q ∉ ps →
          (ps.foldl (fun len p =>
            stripLoop test p len (n.primeFactorsList.count p)) length).factorization q =
            length.factorization q := by
  intro ps
  induction ps with
  | nil =>
    intro _ _ length hl hrl _
    exact ⟨hl, hrl, dvd_refl _, fun p hp => absurd hp (List.not_mem_nil p), fun _ _ => rfl⟩
  | cons p ps ih =>
    intro hnodup hprime length hl hrl hcount
    simp only [List.foldl_cons]
    have hp : p.Prime := hprime p (List.mem_cons_self p ps)
    obtain ⟨h1, h2, h3, h4, h5⟩ :=
      stripLoop_exact test p hp r hchar hr (n.primeFactorsList.count p) length hl hrl
        (hcount p (List.mem_cons_self p ps))
    obtain ⟨hpnotin, hnodup'⟩ := List.nodup_cons.mp hnodup
    obtain ⟨g1, g2, g3, g4, g5⟩ := ih hnodup'
      (fun q hq => hprime q (List.mem_cons_of_mem p hq))
      (stripLoop test p length (n.primeFactorsList.count p)) h1 h2
      (fun q hq => by
        have hqp : q ≠ p := fun hcon => hpnotin (hcon ▸ hq)
        rw [h5 q hqp, hcount q (List.mem_cons_of_mem p hq)])
    refine ⟨g1, g2, g3.trans h3, ?_, fun q hq => ?_⟩
    · intro p' hp'
      rcases List.mem_cons.mp hp' with rfl | hp''
      · rw [g5 p' hpnotin, h4]
      · exact g4 p' hp''
    · have hqp : q ≠ p := fun hcon => hq (hcon ▸ List.mem_cons_self p ps)
      have hqps : q ∉ ps := fun hcon => hq (List.mem_cons_of_mem p hcon)
      rw [g5 q hqps, h5 q hqp]

theorem findPeriodCore_pos_dvd (test : ℕ → Bool) (n : ℕ) (hn : 0 < n) :
    0 < findPeriodCore test n ∧ findPeriodCore test n ∣ n := by
  unfold findPeriodCore
  have h := foldStrip_dvd test n n.primeFactorsList.dedup (List.nodup_dedup _)
    (fun p hp => Nat.prime_of_mem_primeFactorsList (List.mem_dedup.mp hp))
    n hn (fun p _ => Nat.primeFactorsList_count_eq.symm)
  exact ⟨h.1, h.2.1⟩

theorem findPeriodCore_eq_of_char (test : ℕ → Bool) (r n : ℕ)
    (hchar : ∀ k, test k = true ↔ r ∣ k) (hr : 0 < r) (hrn : r ∣ n) (hn : 0 < n) :
    findPeriodCore test n = r := by
  unfold findPeriodCore
  obtain ⟨g1, g2, g3, g4, g5⟩ := foldStrip_exact test n r hchar hr
    n.primeFactorsList.dedup (List.nodup_dedup _)
    (fun p hp => Nat.prime_of_mem_primeFactorsList (List.mem_dedup.mp hp))
    n hn hrn (fun p _ => Nat.primeFactorsList_count_eq.symm)
  apply Nat.eq_of_factorization_eq g1.ne' hr.ne'
  intro q
  by_cases hq : q ∈ n.primeFactorsList.dedup
  · exact g4 q hq
  · rw [g5 q hq]
    by_cases hqp : q.Prime
    · have hqnd : ¬q ∣ n := fun hcon =>
        hq (List.mem_dedup.mpr ((Nat.mem_primeFactorsList hn.ne').mpr ⟨hqp, hcon⟩))
      have h0 : n.factorization q = 0 := Nat.factorization_eq_zero_of_not_dvd hqnd
      have h0r : r.factorization q = 0 := by
        have hrd := (Nat.factorization_le_iff_dvd hr.ne' hn.ne').mpr hrn
        have := Finsupp.le_def.mp hrd q
        omega
      rw [h0, h0r]
    · rw [Nat.factorization_eq_zero_of_non_prime n hqp,
        Nat.factorization_eq_zero_of_non_prime r hqp]

/-! ## The period test accepts exactly the multiples of the exact period -/

theorem SDE.pow_x (u : SDE β γ) (k : ℕ) : (u ^ k).x = u.x ^ k := by
  induction k with
  | zero => rw [pow_zero, pow_zero]; rfl
  | succ k ih =>
    rw [pow_succ, pow_succ]
    show (u ^ k).x * u.x = u.x ^ k * u.x
    rw [ih]

theorem exact_period_char (u : SDE β γ) (r : ℕ) (hper : IsExactPeriod u r) :
    ∀ k, (u ^ k).g = 1 ↔ r ∣ k := by
  obtain ⟨hr, h1, hmin⟩ := hper
  intro k
  constructor
  · induction k using Nat.strong_induction_on with
    | _ k ih =>
      intro hk
      rcases Nat.lt_or_ge k r with hkr | hkr
      · rcases Nat.eq_zero_or_pos k with rfl | hk0
        · exact dvd_zero r
        · exact absurd hk (hmin k hkr hk0)
      · have hsplit : (u ^ (r + (k - r))).g = 1 := by
          rwa [show r + (k - r) = k by omega]
        rw [SDE.pow_add_g, h1, one_mul] at hsplit
        have h2 : (u ^ (k - r)).g = 1 := by
          have h4 : (u ^ r).x • (u ^ (k - r)).g = (u ^ r).x • (1 : β) := by
            rw [smul_one]
            exact hsplit
          exact smul_left_cancel _ h4
        have h5 := ih (k - r) (by omega) h2
        obtain ⟨c, hc⟩ := h5
        exact ⟨c + 1, by rw [Nat.mul_succ]; omega⟩
  · rintro ⟨q, rfl⟩
    exact SDE.pow_g_one_of_exact_dvd u r h1 q

theorem find_period_eq_exact [DecidableEq β] (u : SDE β γ) (n r : ℕ)
    (hper : IsExactPeriod u r) (hrn : r ∣ n) (hn : 0 < n) :
    find_period u n = r := by
  unfold find_period
  refine findPeriodCore_eq_of_char _ r n ?_ hper.1 hrn hn
  intro k
  rw [decide_eq_true_eq]
  exact exact_period_char u r hper k

/-- The two source implementations share their skeleton and differ only in
the success test; on the element `(g, id)` that `find_period.py` builds,
the full-equality test coincides with the base-component test. -/
theorem find_period_full_eq_base [DecidableEq β] [DecidableEq γ] (g : β) (n : ℕ) :
    find_period_full γ g n = find_period (⟨g, 1⟩ : SDE β γ) n := by
  unfold find_period_full find_period
  congr 1
  funext l
  refine decide_eq_decide.mpr ?_
  constructor
  · intro h
    rw [h]
    rfl
  · intro h
    have hx : ((⟨g, 1⟩ : SDE β γ) ^ l).x = 1 := by
      rw [SDE.pow_x]
      exact one_pow l
    have heta : (⟨g, 1⟩ : SDE β γ) ^ l =
        ⟨((⟨g, 1⟩ : SDE β γ) ^ l).g, ((⟨g, 1⟩ : SDE β γ) ^ l).x⟩ := rfl
    rw [heta, h, hx]
    rfl

/-! ## Claim C5: `find_period` returns a positive divisor that passes the test -/

/-- C5: for every semidirect element `u` and positive `n`, `find_period u n`
is a positive divisor of `n`; and when `n` is a multiple of the exact
period of `u`, the base component of `u` raised to the returned value is
the base component of the identity. -/
theorem claim_C5_period_divisor :
    ∀ (β γ : Type) [Group β] [Group γ] [MulDistribMulAction γ β] [DecidableEq β]
      (u : SDE β γ) (n : ℕ), 0 < n →
      (0 < find_period u n ∧ find_period u n ∣ n) ∧
      ∀ r, IsExactPeriod u r → r ∣ n → (u ^ find_period u n).g = 1 := by
  intro β γ _ _ _ _ u n hn
  constructor
  · exact findPeriodCore_pos_dvd _ n hn
  · intro r hper hrn
    rw [find_period_eq_exact u n r hper hrn hn]
    exact hper.2.1

/-- Witness for C5 on the `p = 5` platform: `u5 = (2, 3)` with `n = 4`
(a multiple of its exact period `2`). -/
theorem claim_C5_period_divisor_witness :
    (0 < find_period u5 4 ∧ find_period u5 4 ∣ 4) ∧ (u5 ^ find_period u5 4).g = 1 :=
  ⟨(claim_C5_period_divisor (ZMod 5)ˣ (ZMod 4)ˣ u5 4 (by decide)).1,
   (claim_C5_period_divisor (ZMod 5)ˣ (ZMod 4)ˣ u5 4 (by decide)).2 2
     ⟨by decide, by decide, by decide⟩ (by decide)⟩

/-! ## Claim C6: minimality of `find_period` among divisors -/

/-- C6: when `n` is a multiple of the exact period of `u`, no proper
positive divisor `d` of `find_period u n` passes the equal-base-component
test. -/
theorem claim_C6_period_minimal :
    ∀ (β γ : Type) [Group β] [Group γ] [MulDistribMulAction γ β] [DecidableEq β]
      (u : SDE β γ) (n r : ℕ), IsExactPeriod u r → r ∣ n → 0 < n →
      ∀ d, d ∣ find_period u n → 0 < d → d ≠ find_period u n → (u ^ d).g ≠ 1 := by
  intro β γ _ _ _ _ u n r hper hrn hn d hdvd hd hne hcontra
  rw [find_period_eq_exact u n r hper hrn hn] at hdvd hne
  have h1 : r ∣ d := (exact_period_char u r hper d).mp hcontra
  exact hne (Nat.dvd_antisymm hdvd h1)

/-- Witness for C6: on `u5` with `n = 4` the returned period is `2`, and
its proper divisor `1` fails the test. -/
theorem claim_C6_period_minimal_witness : (u5 ^ 1).g ≠ 1 := by
  have hper : IsExactPeriod u5 2 := ⟨by decide, by decide, by decide⟩
  have hval : find_period u5 4 = 2 := find_period_eq_exact u5 4 2 hper (by decide) (by decide)
  refine claim_C6_period_minimal (ZMod 5)ˣ (ZMod 4)ˣ u5 4 2 hper (by decide) (by decide)
    1 ?_ (by decide) ?_
  · rw [hval]
    exact one_dvd 2
  · rw [hval]
    decide

/-! ## Claim C10: the two `find_period` implementations -/

/-- C10 is false as stated: on the `p = 5` finite-field platform with
`u5 = (2, 3)` and `n = 4`, `period.py`'s `find_period(u5, 4)` returns the
twisted period `2`, while `find_period.py`'s `find_period(2, 4, G)` — which
tests powers of `(2, id)` — returns the multiplicative order `4` of the
base component. -/
theorem claim_C10_counterexample :
    find_period_full ((ZMod 4)ˣ) u5.g 4 ≠ find_period u5 4 := by
  have h1 : find_period u5 4 = 2 :=
    find_period_eq_exact u5 4 2 ⟨by decide, by decide, by decide⟩ (by decide) (by decide)
  have h2 : find_period_full ((ZMod 4)ˣ) u5.g 4 = 4 := by
    rw [find_period_full_eq_base]
    exact find_period_eq_exact (⟨u5.g, 1⟩ : SDE (ZMod 5)ˣ (ZMod 4)ˣ) 4 4
      ⟨by decide, by decide, by decide⟩ (by decide) (by decide)
  rw [h1, h2]
  decide

/-- C10 (amended): the two implementations agree exactly on the element
`find_period.py` actually tests — `(g, id)` with trivial automorphism
component: `find_period.py`'s `find_period(g, n, G)` always equals
`period.py`'s `find_period((g, 1), n)`; for an element whose automorphism
component is nontrivial the two can differ. -/
theorem claim_C10_amended_agree_on_trivial_aut :
    ∀ (β γ : Type) [Group β] [Group γ] [MulDistribMulAction γ β] [DecidableEq β]
      [DecidableEq γ] (g : β) (n : ℕ),
      find_period_full γ g n = find_period (⟨g, 1⟩ : SDE β γ) n := by
  intro β γ _ _ _ _ _ g n
  exact find_period_full_eq_base g n

/-- Witness for the amended C10 at the concrete `p = 5` base element. -/
theorem claim_C10_amended_witness :
    find_period_full ((ZMod 4)ˣ) u5.g 4 =
      find_period (⟨u5.g, 1⟩ : SDE (ZMod 5)ˣ (ZMod 4)ˣ) 4 :=
  claim_C10_amended_agree_on_trivial_aut (ZMod 5)ˣ (ZMod 4)ˣ u5.g 4

/-! ## Claim C8: the finite-field platform composition is a group law -/

/-- C8: on the `p`-platform class `SemidirectProductElementZp` (odd prime
`p`), composition is associative, `one() = (1, 1)` is a two-sided unit, and
the implemented inverse is two-sided — on the actual group elements: the
base component must be a unit of `Z_p` (nonzero) and the automorphism
exponent a unit of `Z_{p-1}`, which is exactly membership in
`F_p* ⋊ Aut(F_p*)`.  Each part assumes only what it needs. -/
theorem claim_C8_zp_group_laws :
    ∀ p : ℕ, p.Prime → 2 < p →
      (∀ a b c : ZpElt p, c.g ≠ 0 → (a.mul b).mul c = a.mul (b.mul c)) ∧
      (∀ a : ZpElt p, (ZpElt.one p).mul a = a ∧ a.mul (ZpElt.one p) = a) ∧
      (∀ a : ZpElt p, a.g ≠ 0 → IsUnit a.x →
        a.mul a.inv = ZpElt.one p ∧ a.inv.mul a = ZpElt.one p) := by
  intro p hp hp2
  haveI : Fact p.Prime := ⟨hp⟩
  haveI : Fact (1 < p - 1) := ⟨by omega⟩
  haveI : NeZero (p - 1) := ⟨by omega⟩
  refine ⟨?_, ?_, ?_⟩
  · intro a b c hc
    show ZpElt.mk ((a.g * b.g ^ a.x.val) * c.g ^ (a.x * b.x).val) ((a.x * b.x) * c.x) =
      ZpElt.mk (a.g * (b.g * c.g ^ b.x.val) ^ a.x.val) (a.x * (b.x * c.x))
    rw [ZpElt.mk.injEq]
    constructor
    · have hc1 : c.g ^ (p - 1) = 1 := ZMod.pow_card_sub_one_eq_one hc
      rw [ZMod.val_mul, ← pow_eq_pow_mod _ hc1, mul_pow, ← pow_mul]
      ring
    · rw [mul_assoc]
  · intro a
    constructor
    · show ZpElt.mk (1 * a.g ^ (1 : ZMod (p - 1)).val) (1 * a.x) = a
      rw [ZMod.val_one, pow_one, one_mul, one_mul]
    · show ZpElt.mk (a.g * 1 ^ a.x.val) (a.x * 1) = a
      rw [one_pow, mul_one, mul_one]
  · intro a ha hx
    have hg1 : a.g ^ (p - 1) = 1 := ZMod.pow_card_sub_one_eq_one ha
    have hxx : a.x * a.x⁻¹ = 1 := ZMod.mul_inv_of_unit a.x hx
    have hxx' : a.x⁻¹ * a.x = 1 := ZMod.inv_mul_of_unit a.x hx
    have hval : (a.x⁻¹).val * a.x.val % (p - 1) = 1 := by
      have h := congrArg ZMod.val hxx'
      rwa [ZMod.val_mul, ZMod.val_one] at h
    constructor
    · show ZpElt.mk (a.g * ((a.g ^ (a.x⁻¹).val)⁻¹) ^ a.x.val) (a.x * a.x⁻¹) =
        ZpElt.mk 1 1
      rw [ZpElt.mk.injEq]
      constructor
      · rw [inv_pow, ← pow_mul, pow_eq_pow_mod _ hg1, hval, pow_one,
          mul_inv_cancel₀ ha]
      · exact hxx
    · show ZpElt.mk ((a.g ^ (a.x⁻¹).val)⁻¹ * a.g ^ (a.x⁻¹).val) (a.x⁻¹ * a.x) =
        ZpElt.mk 1 1
      rw [ZpElt.mk.injEq]
      constructor
      · exact inv_mul_cancel₀ (pow_ne_zero _ ha)
      · exact hxx'

/-- Witness for C8 at `p = 7` with concrete group elements `a = (3, 5)`,
`b = (2, 1)`, `c = (4, 5)`. -/
theorem claim_C8_zp_group_laws_witness :
    (((⟨3, 5⟩ : ZpElt 7).mul ⟨2, 1⟩).mul ⟨4, 5⟩ =
      (⟨3, 5⟩ : ZpElt 7).mul ((⟨2, 1⟩ : ZpElt 7).mul ⟨4, 5⟩)) ∧
    ((ZpElt.one 7).mul ⟨3, 5⟩ = (⟨3, 5⟩ : ZpElt 7) ∧
      (⟨3, 5⟩ : ZpElt 7).mul (ZpElt.one 7) = ⟨3, 5⟩) ∧
    ((⟨3, 5⟩ : ZpElt 7).mul (ZpElt.inv ⟨3, 5⟩) = ZpElt.one 7 ∧
      (ZpElt.inv (⟨3, 5⟩ : ZpElt 7)).mul ⟨3, 5⟩ = ZpElt.one 7) := by
  have h := claim_C8_zp_group_laws 7 (by norm_num) (by omega)
  exact ⟨h.1 ⟨3, 5⟩ ⟨2, 1⟩ ⟨4, 5⟩ (by decide), h.2.1 ⟨3, 5⟩,
    h.2.2 ⟨3, 5⟩ (by decide) ⟨⟨5, 5, by decide, by decide⟩, rfl⟩⟩

end SDLP
